import Mathlib

/-!
Verification development for the Unarchiver repository.

The repository is a Tauri application: a TypeScript client (src/src and the
unnamed parts) driving a Rust extraction engine that lives in crates/ (the
engine sources are not part of this tree; only its documented interface is).
The TypeScript client code is embedded directly; the engine components
(path sanitizer, size-limit accumulator, multi-part RAR detection) are
modelled from the specification, as marked on each definition.

JavaScript strings are embedded as Lean `String`; the string helpers used by
the client (`split`, `toLowerCase`, `localeCompare` ordering) are written
here as structurally recursive functions over the underlying character list
so that every definition evaluates by kernel reduction.
-/

set_option maxHeartbeats 1000000

namespace Unarchiver

/-! ### JavaScript string helpers -/

/-- JavaScript `String.prototype.split` on character lists,
with a single-character separator. `splitChars sep "" = [""]` just as in JS. -/
def splitChars (sep : Char) : List Char → List (List Char)
  | [] => [[]]
  | c :: rest =>
    let r := splitChars sep rest
    if c = sep then [] :: r
    else
      match r with
      | g :: gs => (c :: g) :: gs
      | [] => [[c]]

/-- JavaScript `path.split("/")`. -/
def splitPath (s : String) : List String :=
  (splitChars '/' s.data).map (fun cs => ⟨cs⟩)

/-- JavaScript `path.split("/").filter(Boolean)`: the non-empty segments of
a forward-slash separated path (used both by the client's tree builder and
by the engine model's sanitizer). -/
def pathSegs (p : String) : List String :=
  (splitPath p).filter (fun s => s ≠ "")

/-- JavaScript `s.toLowerCase()` (ASCII case folding, which is all the client
compares against). -/
def jsToLower (s : String) : String := ⟨s.data.map Char.toLower⟩

/-- Lexicographic `≤` on character lists: the ordering used to model the
`localeCompare` comparator of the client's sort (both orders agree on the
paths considered here: prefixes sort first and `/` precedes letters). -/
def lexLeB : List Char → List Char → Bool
  | [], _ => true
  | _ :: _, [] => false
  | a :: as, b :: bs =>
    if a < b then true
    else if b < a then false
    else lexLeB as bs

/-- JavaScript `x || undefined` on an optional string (`""` is falsy). -/
def jsOrUndefined (s : Option String) : Option String :=
  match s with
  | some v => if v = "" then none else some v
  | none => none

/-- JavaScript `x || d` on an optional string (`""` is falsy). -/
def jsOrDefault (s : Option String) (d : String) : String :=
  match s with
  | some v => if v = "" then d else v
  | none => d

/-! ### Client data model (src/src/lib/types.ts) -/

inductive JobStatus
  | pending
  | extracting
  | completed
  | failed
  | cancelled
deriving DecidableEq, Repr

inductive OverwriteMode
  | replace
  | skip
  | rename
deriving DecidableEq, Repr

structure Progress where
  currentFile : String
  bytesWritten : Nat
  totalBytes : Option Nat
  filesExtracted : Nat
deriving DecidableEq, Repr

structure ExtractStats where
  filesExtracted : Nat
  bytesWritten : Nat
deriving DecidableEq, Repr

structure QueueItem where
  id : String
  archivePath : String
  outputDir : String
  status : JobStatus
  progress : Option Progress := none
  error : Option String := none
  stats : Option ExtractStats := none
deriving DecidableEq, Repr

structure Settings where
  overwriteMode : OverwriteMode
  sizeLimitGB : Int
  stripComponents : Nat
  allowSymlinks : Bool
  allowHardlinks : Bool
deriving DecidableEq, Repr

structure ExtractOptionsDTO where
  overwrite : OverwriteMode
  sizeLimitBytes : Option Int
  stripComponents : Nat
  allowSymlinks : Bool
  allowHardlinks : Bool
  password : Option String
deriving DecidableEq, Repr

/-- The function `settingsToOptions` from src/src/lib/api.ts. -/
def settingsToOptions (settings : Settings) (password : Option String) :
    ExtractOptionsDTO :=
  { overwrite := settings.overwriteMode
    sizeLimitBytes :=
      if settings.sizeLimitGB > 0 then
        some (settings.sizeLimitGB * 1024 * 1024 * 1024)
      else none
    stripComponents := settings.stripComponents
    allowSymlinks := settings.allowSymlinks
    allowHardlinks := settings.allowHardlinks
    password := password }

/-! ### The queue store (src/src/lib/store.ts)

The nanostores `map` keyed by job id is embedded as a function from keys to
optional queue items. -/

def Queue : Type := String → Option QueueItem

/-- The store operation `queueMap.setKey(id, item)`. -/
def Queue.setKey (q : Queue) (id : String) (item : QueueItem) : Queue :=
  fun k => if k = id then some item else q k

/-- The store helper `addToQueue`: `queueMap.setKey(item.id, item)`. -/
def addToQueue (q : Queue) (item : QueueItem) : Queue :=
  q.setKey item.id item

/-- A `Partial<QueueItem>` as passed to `updateQueueItem`: a field holding
`none` is an absent key (the current value is kept); a field holding
`some v` is a present key spread over the current item (for the optional
fields, `some none` is a present key explicitly set to `undefined`). -/
structure QueueUpdate where
  status : Option JobStatus := none
  progress : Option (Option Progress) := none
  error : Option (Option String) := none
  stats : Option (Option ExtractStats) := none

/-- The object spread of `updates` over `current`. -/
def applyUpdate (current : QueueItem) (u : QueueUpdate) : QueueItem :=
  { current with
    status := u.status.getD current.status
    progress := u.progress.getD current.progress
    error := u.error.getD current.error
    stats := u.stats.getD current.stats }

/-- The store helper `updateQueueItem`: looks the id up, spreads the updates
over the current item and writes it back; warns and leaves the map alone
when the id is absent. -/
def updateQueueItem (q : Queue) (id : String) (u : QueueUpdate) : Queue :=
  match q id with
  | some current => q.setKey id (applyUpdate current u)
  | none => q

/-! ### Events and the App event handlers (src/src/App.tsx) -/

structure ProgressEvent where
  jobId : String
  currentFile : String
  bytesWritten : Nat
  totalBytes : Option Nat
deriving DecidableEq, Repr

/-- A JavaScript runtime value, as far as the completion handler's
`typeof`-dispatch observes it: a string, a non-null object (carrying the
result of `String(v)`, e.g. `"[object Object]"` for a plain object), `null`,
`undefined`, a number, or a boolean. -/
inductive JSValue
  | str (s : String)
  | obj (toStr : String)
  | nullV
  | undefV
  | num (n : Int)
  | boolV (b : Bool)
deriving DecidableEq, Repr

structure CompletionEvent where
  jobId : String
  status : JSValue
  stats : Option ExtractStats
  error : Option String
  archivePath : String
deriving DecidableEq, Repr

/-- The `statusStr` computation of the completion handler:
strings are lowercased, non-null objects are stringified and lowercased,
anything else becomes `"failed"` (`null` falls into the final branch because
the handler checks `event.status !== null`). -/
def completionStatusStr : JSValue → String
  | .str s => jsToLower s
  | .obj t => jsToLower t
  | _ => "failed"

/-- The status mapping of the completion handler:
`"success"` ↦ completed, `"cancelled"` ↦ cancelled, anything else ↦ failed. -/
def mapCompletionStatus (statusStr : String) : JobStatus :=
  if statusStr = "success" then .completed
  else if statusStr = "cancelled" then .cancelled
  else .failed

/-- The archive display name: `event.archivePath.split("/").pop() || "Archive"`. -/
def archiveNameOf (p : String) : String :=
  match (splitPath p).getLast? with
  | some s => if s = "" then "Archive" else s
  | none => "Archive"

/-- The `Partial<QueueItem>` built by the progress handler. -/
def progressUpdate (ev : ProgressEvent) : QueueUpdate :=
  { status := some .extracting
    progress := some (some
      { currentFile := ev.currentFile
        bytesWritten := ev.bytesWritten
        totalBytes := ev.totalBytes
        filesExtracted := 0 }) }

/-- The `onProgress` handler of App.tsx. -/
def processProgress (q : Queue) (ev : ProgressEvent) : Queue :=
  updateQueueItem q ev.jobId (progressUpdate ev)

inductive Toast
  | success (msg : String)
  | error (msg : String)
deriving DecidableEq, Repr

/-- The pieces of App state the completion handler touches: the queue map,
the `completedJobsRef` set of already-processed job ids, and the toasts
shown so far. -/
structure AppState where
  queue : Queue
  completedJobs : List String
  toasts : List Toast

/-- The `Partial<QueueItem>` built by the completion handler. -/
def completionUpdate (ev : CompletionEvent) (status : JobStatus) : QueueUpdate :=
  { status := some status
    stats := some ev.stats
    error := some (jsOrUndefined ev.error)
    progress := some none }

/-- The `onCompletion` handler of App.tsx: events for an already-processed
job id are ignored; otherwise the id is recorded, the status value is mapped
to a terminal `JobStatus`, the queue entry under the event's job id is
updated, and a success or error toast is shown. -/
def processCompletion (st : AppState) (ev : CompletionEvent) : AppState :=
  if ev.jobId ∈ st.completedJobs then st
  else
    let statusStr := completionStatusStr ev.status
    let status := mapCompletionStatus statusStr
    let queue' := updateQueueItem st.queue ev.jobId (completionUpdate ev status)
    let toasts' :=
      if status = .completed then
        st.toasts ++ [.success ("Successfully extracted: " ++ archiveNameOf ev.archivePath)]
      else if status = .failed then
        st.toasts ++ [.error ("Extraction failed for " ++ archiveNameOf ev.archivePath
          ++ ": " ++ jsOrDefault ev.error "Unknown error")]
      else st.toasts
    { queue := queue'
      completedJobs := ev.jobId :: st.completedJobs
      toasts := toasts' }

/-- The success path of `MainLayout.handleExtract`: the engine accepted the
request and returned `jobId`; a queue item with exactly that id and status
`pending` is added to the queue. -/
def handleExtractAccepted (q : Queue) (jobId archivePath outputDir : String) :
    Queue :=
  addToQueue q
    { id := jobId
      archivePath := archivePath
      outputDir := outputDir
      status := .pending }

/-! ### Engine model

The Rust extraction engine (crates/extractor) is not part of this tree; the
definitions below are modelled from the specification's description of its
components. -/

/-- The engine's error taxonomy (spec §7). -/
inductive ExtractError
  | UnsupportedFormat
  | NotFound
  | IoError
  | MultiPartUnsupported
  | BadPassword
  | UnsafePath
  | SymlinkDisallowed
  | HardlinkDisallowed
  | SizeLimitExceeded
  | InvalidStripComponents
  | UnknownJob
  | NoPendingPasswordRequest
deriving DecidableEq, Repr

inductive EntryKind
  | file
  | directory
  | symlink
  | hardlink
deriving DecidableEq, Repr

/-- An archive entry as the engine sees it: an untrusted container path
(forward-slash separated, possibly holding `..` or absolute prefixes),
a kind, and an uncompressed size in bytes. -/
structure EngineEntry where
  path : String
  kind : EntryKind
  size : Nat
deriving DecidableEq, Repr

/-- Modelled from the spec: the Path Sanitizer (§4.3). Missing from this
tree: the `extractor` crate. Algorithm, in the spec's order: (1) reject
empty paths; (2) strip `strip_components` leading segments, failing with
`InvalidStripComponents` when stripping removes the entire path of a
non-directory entry; (3) normalize `.` segments away and reject any
remaining `..` segment with `UnsafePath`; (4) absolute-looking container
paths are treated as root-relative (empty segments, in particular a leading
`/`, are dropped); (5) a symlink with `allow_symlinks` false fails with
`SymlinkDisallowed`, a hardlink with `allow_hardlinks` false with
`HardlinkDisallowed`. On success the resolved path is the extraction root
followed by the surviving segments. -/
def sanitizePath (root : String) (stripComponents : Nat)
    (allowSymlinks allowHardlinks : Bool) (entry : EngineEntry) :
    Except ExtractError String :=
  if entry.path = "" then .error .UnsafePath
  else if (pathSegs entry.path).drop stripComponents = [] ∧ entry.kind ≠ .directory then
    .error .InvalidStripComponents
  else if ".." ∈ ((pathSegs entry.path).drop stripComponents).filter (fun s => s ≠ ".") then
    .error .UnsafePath
  else if entry.kind = .symlink ∧ allowSymlinks = false then .error .SymlinkDisallowed
  else if entry.kind = .hardlink ∧ allowHardlinks = false then .error .HardlinkDisallowed
  else .ok (root ++ "/" ++ String.intercalate "/"
    (((pathSegs entry.path).drop stripComponents).filter (fun s => s ≠ ".")))

/-- Modelled from the spec: probing reports `uncompressed_estimate`, the
total of the entries' uncompressed sizes (§3). -/
def uncompressedEstimate (entries : List EngineEntry) : Nat :=
  (entries.map (fun e => e.size)).sum

/-- Modelled from the spec: the Job Controller's streaming loop with the
size-limit accumulator (§4.5). Missing from this tree: the `extractor`
crate. Cumulative `bytes_written` is compared against `size_limit_bytes`
before each write; a write that would exceed the limit fails the job with
`SizeLimitExceeded`, and the bytes already written stay on disk (no
rollback) — the error carries that byte count. `none` means unlimited. -/
def runExtraction (sizeLimit : Option Nat) :
    List EngineEntry → Nat → Except (ExtractError × Nat) Nat
  | [], written => .ok written
  | e :: rest, written =>
    match sizeLimit with
    | some limit =>
      if limit < written + e.size then .error (.SizeLimitExceeded, written)
      else runExtraction sizeLimit rest (written + e.size)
    | none => runExtraction sizeLimit rest (written + e.size)

/-- Digits of a decimal numeral to a natural number; `none` on a non-digit
or on the empty list. -/
def digitsToNat? : List Char → Option Nat :=
  go none
where
  go : Option Nat → List Char → Option Nat
    | acc, [] => acc
    | acc, c :: rest =>
      if c.isDigit then
        go (some ((acc.getD 0) * 10 + (c.toNat - '0'.toNat))) rest
      else none

/-- Modelled from the spec: the Format Detector's multi-part RAR filename
pattern `base.partN.rar` (§4.1). Missing from this tree: the `extractor`
crate. Returns the base name and the part index. -/
def rarPartBaseIndex (name : String) : Option (String × Nat) :=
  match ((splitChars '.' name.data).map (fun cs => String.mk cs)).reverse with
  | ext :: partSeg :: restRev =>
    if ext = "rar" then
      match partSeg.data with
      | 'p' :: 'a' :: 'r' :: 't' :: ds =>
        match digitsToNat? ds with
        | some n => some (String.intercalate "." restRev.reverse, n)
        | none => none
      | _ => none
    else none
  | _ => none

/-- The filename of part `i` of a multi-part RAR set with the given base. -/
def rarPartName (base : String) (i : Nat) : String :=
  base ++ ".part" ++ toString i ++ ".rar"

/-- Modelled from the spec: multi-part RAR detection (§4.1) — regardless of
which part the caller selected, detection resolves and returns the
canonical first part, provided it exists among the sibling files of the
selected file's directory. -/
def resolveRarFirstPart (siblings : List String) (selected : String) :
    Option String :=
  match rarPartBaseIndex selected with
  | some (base, _) =>
    if rarPartName base 1 ∈ siblings then some (rarPartName base 1) else none
  | none => none

/-- Modelled from the spec: the extraction pipeline opens the Archive Reader
on the path detection resolved (§4.1, §4.5) — for a RAR part, always the
first part of the set. -/
def readerOpenPath (siblings : List String) (selected : String) :
    Option String :=
  resolveRarFirstPart siblings selected

/-! ### The archive preview tree (ArchivePreview.buildTree) -/

/-- An archive entry as delivered to the client by `probe`
(bindings/ArchiveEntry). -/
structure ArchiveEntry where
  path : String
  is_directory : Bool
  size : Nat
  compressed_size : Option Nat
deriving DecidableEq, Repr

/-- A node of the preview tree. The mutable `children` arrays of the
TypeScript `TreeNode` are represented by a parent pointer: a node with
`parent = some p` sits in the `children` of the node whose path is `p`,
and a node with `parent = none` sits in the root list. -/
structure TreeNode where
  name : String
  path : String
  isDirectory : Bool
  size : Nat
  compressedSize : Option Nat
  parent : Option String
deriving DecidableEq, Repr

/-- The parent path a child is looked up under:
`parts.slice(0, -1).join("/") + "/"`. -/
def parentPathOf (parts : List String) : String :=
  String.intercalate "/" parts.dropLast ++ "/"

/-- The node `buildTree` creates for one entry: `lookup` is the set of keys
present in `nodeMap` at that moment (the entry's own path was just added).
The parent lookup only happens for an entry with more than one segment; a
missing parent leaves the node at the root. -/
def treeNodeFor (e : ArchiveEntry) (lookup : List String) : TreeNode :=
  let parts := pathSegs e.path
  { name := (parts.getLast?).getD e.path
    path := e.path
    isDirectory := e.is_directory
    size := e.size
    compressedSize := e.compressed_size
    parent :=
      if 1 < parts.length then
        let pp := parentPathOf parts
        if pp ∈ lookup then some pp else none
      else none }

/-- The `forEach` loop of `buildTree`: each entry is inserted into the map
and turned into a node; `seen` holds the paths inserted so far. -/
def buildNodes : List String → List ArchiveEntry → List TreeNode
  | _, [] => []
  | seen, e :: rest =>
    treeNodeFor e (e.path :: seen) :: buildNodes (e.path :: seen) rest

/-- The sort order of `buildTree`'s comparator
`(a, b) => a.path.localeCompare(b.path)`, modelled as lexicographic order
on the paths' characters. -/
def entryLe (a b : ArchiveEntry) : Prop :=
  lexLeB a.path.data b.path.data = true

instance : DecidableRel entryLe :=
  fun a b => decidable_of_iff (lexLeB a.path.data b.path.data = true) Iff.rfl

/-- The function `ArchivePreview.buildTree`: sort the entries by path with a stable sort
(ECMAScript `Array.prototype.sort` is stable; insertion sort models it),
then insert each entry under its parent when the parent's path is already
in the node map, and at the root otherwise. -/
def buildTree (entries : List ArchiveEntry) : List TreeNode :=
  buildNodes [] (List.insertionSort entryLe entries)

/-! ### Helper lemmas -/

theorem lexLeB_nil_left (bs : List Char) : lexLeB [] bs = true := rfl

theorem lexLeB_cons_nil (a : Char) (as : List Char) : lexLeB (a :: as) [] = false := rfl

theorem lexLeB_cons_lt {a b : Char} (h : a < b) (as bs : List Char) :
    lexLeB (a :: as) (b :: bs) = true := by
  simp only [lexLeB]
  rw [if_pos h]

theorem lexLeB_cons_gt {a b : Char} (h : b < a) (as bs : List Char) :
    lexLeB (a :: as) (b :: bs) = false := by
  simp only [lexLeB]
  rw [if_neg (lt_asymm h), if_pos h]

theorem lexLeB_cons_self (a : Char) (as bs : List Char) :
    lexLeB (a :: as) (a :: bs) = lexLeB as bs := by
  simp only [lexLeB]
  rw [if_neg (lt_irrefl a), if_neg (lt_irrefl a)]

theorem lexLeB_refl (as : List Char) : lexLeB as as = true := by
  induction as with
  | nil => rfl
  | cons a rest ih => rw [lexLeB_cons_self, ih]

theorem lexLeB_total : ∀ as bs : List Char, lexLeB as bs = true ∨ lexLeB bs as = true
  | [], _ => Or.inl rfl
  | _ :: _, [] => Or.inr rfl
  | a :: as, b :: bs => by
    rcases lt_trichotomy a b with h | h | h
    · left; rw [lexLeB_cons_lt h]
    · subst h
      rw [lexLeB_cons_self, lexLeB_cons_self]
      exact lexLeB_total as bs
    · right; rw [lexLeB_cons_lt h]

theorem lexLeB_trans : ∀ as bs cs : List Char,
    lexLeB as bs = true → lexLeB bs cs = true → lexLeB as cs = true
  | [], _, _ => fun _ _ => rfl
  | _ :: _, [], _ => fun h1 _ => absurd h1 (by rw [lexLeB_cons_nil]; exact Bool.false_ne_true)
  | _ :: _, _ :: _, [] => fun _ h2 => absurd h2 (by rw [lexLeB_cons_nil]; exact Bool.false_ne_true)
  | a :: as, b :: bs, c :: cs => fun h1 h2 => by
    rcases lt_trichotomy a b with hab | hab | hab
    · rcases lt_trichotomy b c with hbc | hbc | hbc
      · rw [lexLeB_cons_lt (hab.trans hbc)]
      · subst hbc; rw [lexLeB_cons_lt hab]
      · rw [lexLeB_cons_gt hbc] at h2; cases h2
    · subst hab
      rcases lt_trichotomy a c with hbc | hbc | hbc
      · rw [lexLeB_cons_lt hbc]
      · subst hbc
        rw [lexLeB_cons_self] at h1 h2 ⊢
        exact lexLeB_trans as bs cs h1 h2
      · rw [lexLeB_cons_gt hbc] at h2; cases h2
    · rw [lexLeB_cons_gt hab] at h1; cases h1

theorem lexLeB_antisymm : ∀ as bs : List Char,
    lexLeB as bs = true → lexLeB bs as = true → as = bs
  | [], [] => fun _ _ => rfl
  | [], _ :: _ => fun _ h2 => by rw [lexLeB_cons_nil] at h2; cases h2
  | _ :: _, [] => fun h1 _ => by rw [lexLeB_cons_nil] at h1; cases h1
  | a :: as, b :: bs => fun h1 h2 => by
    rcases lt_trichotomy a b with h | h | h
    · rw [lexLeB_cons_gt h] at h2; cases h2
    · subst h
      rw [lexLeB_cons_self] at h1 h2
      rw [lexLeB_antisymm as bs h1 h2]
    · rw [lexLeB_cons_gt h] at h1; cases h1

theorem runExtraction_over (limit : Nat) (entries : List EngineEntry) :
    ∀ written : Nat,
      limit < written + uncompressedEstimate entries → written ≤ limit →
      ∃ d, runExtraction (some limit) entries written = .error (.SizeLimitExceeded, d) ∧
        d ≤ limit ∧
        ∃ done rest, entries = done ++ rest ∧ d = written + uncompressedEstimate done := by
  induction entries with
  | nil =>
    intro w h1 h2
    exfalso
    simp [uncompressedEstimate] at h1
    omega
  | cons e rest ih =>
    intro w h1 h2
    by_cases hlt : limit < w + e.size
    · refine ⟨w, by simp [runExtraction, hlt], h2, [], e :: rest, rfl, ?_⟩
      simp [uncompressedEstimate]
    · have h1' : limit < (w + e.size) + uncompressedEstimate rest := by
        simp [uncompressedEstimate] at h1 ⊢
        omega
      obtain ⟨d, hrun, hd, done, tail, heq, hsum⟩ := ih (w + e.size) h1' (by omega)
      refine ⟨d, by simp [runExtraction, hlt, hrun], hd, e :: done, tail,
        by rw [heq, List.cons_append], ?_⟩
      simp [uncompressedEstimate] at hsum ⊢
      omega

theorem buildNodes_length (seen : List String) (l : List ArchiveEntry) :
    (buildNodes seen l).length = l.length := by
  induction l generalizing seen with
  | nil => rfl
  | cons e rest ih => simp [buildNodes, ih]

theorem buildNodes_getElem? (seen : List String) (l : List ArchiveEntry) (i : Nat) :
    (buildNodes seen l)[i]? =
      (l[i]?).map (fun e =>
        treeNodeFor e (((l.take (i + 1)).map (fun x => x.path)).reverse ++ seen)) := by
  induction l generalizing seen i with
  | nil => simp [buildNodes]
  | cons e rest ih =>
    cases i with
    | zero => simp [buildNodes]
    | succ n =>
      have := ih (e.path :: seen) n
      cases h : rest[n]? with
      | none => simp [buildNodes, h, this]
      | some x =>
        simp [buildNodes, h, this, List.take_succ_cons, List.append_assoc]

theorem buildNodes_map_path (seen : List String) (l : List ArchiveEntry) :
    (buildNodes seen l).map (fun n => n.path) = l.map (fun e => e.path) := by
  induction l generalizing seen with
  | nil => rfl
  | cons e rest ih => simp [buildNodes, treeNodeFor, ih]

theorem treeNodeFor_parent (e : ArchiveEntry) (lookup : List String) :
    (treeNodeFor e lookup).parent =
      if 1 < (pathSegs e.path).length then
        (if parentPathOf (pathSegs e.path) ∈ lookup then
          some (parentPathOf (pathSegs e.path))
        else none)
      else none := rfl

/-! ### Claim theorems -/

/-- Claim C2: for every `Settings` value, the options passed to the engine's
extract operation carry `sizeLimitBytes = sizeLimitGB * 1024³` when
`sizeLimitGB > 0` and no `sizeLimitBytes` (unlimited) when
`sizeLimitGB ≤ 0`, while overwrite, stripComponents, allowSymlinks,
allowHardlinks and password pass through unchanged. -/
theorem settingsToOptions_spec (settings : Settings) (password : Option String) :
    (settingsToOptions settings password).overwrite = settings.overwriteMode ∧
    (settings.sizeLimitGB > 0 →
      (settingsToOptions settings password).sizeLimitBytes =
        some (settings.sizeLimitGB * 1024 * 1024 * 1024)) ∧
    (settings.sizeLimitGB ≤ 0 →
      (settingsToOptions settings password).sizeLimitBytes = none) ∧
    (settingsToOptions settings password).stripComponents = settings.stripComponents ∧
    (settingsToOptions settings password).allowSymlinks = settings.allowSymlinks ∧
    (settingsToOptions settings password).allowHardlinks = settings.allowHardlinks ∧
    (settingsToOptions settings password).password = password := by
  refine ⟨rfl, ?_, ?_, rfl, rfl, rfl, rfl⟩
  · intro h; simp [settingsToOptions, h]
  · intro h; simp [settingsToOptions, not_lt.mpr h]

theorem settingsToOptions_spec_witness :
    ((0 : Int) < 20) ∧
    (settingsToOptions ⟨.rename, 20, 0, false, false⟩ none).sizeLimitBytes =
      some (20 * 1024 * 1024 * 1024) ∧
    ((0 : Int) ≤ 0) ∧
    (settingsToOptions ⟨.rename, 0, 0, false, false⟩ none).sizeLimitBytes = none :=
  ⟨by decide,
   (settingsToOptions_spec ⟨.rename, 20, 0, false, false⟩ none).2.1 (by decide),
   le_refl 0,
   (settingsToOptions_spec ⟨.rename, 0, 0, false, false⟩ none).2.2.1 (by decide)⟩

/-- Claim C9: `updateQueueItem` modifies at most the queue entry stored under
the given id, leaving every other entry unchanged; when the id is not in the
queue map, the map is left entirely unchanged. -/
theorem updateQueueItem_frame (q : Queue) (id : String) (u : QueueUpdate) :
    (∀ k, k ≠ id → updateQueueItem q id u k = q k) ∧
    (q id = none → updateQueueItem q id u = q) := by
  constructor
  · intro k hk
    cases h : q id with
    | none => simp [updateQueueItem, h]
    | some current => simp [updateQueueItem, h, Queue.setKey, hk]
  · intro h
    simp [updateQueueItem, h]

theorem updateQueueItem_frame_witness :
    ((fun (_ : String) => (none : Option QueueItem)) "other" ≠ (fun (_ : String) => (none : Option QueueItem)) "j1" → True) ∧
    (fun (_ : String) => (none : Option QueueItem)) "j1" = none ∧
    updateQueueItem (fun _ => none) "j1" {} = (fun _ => none) :=
  ⟨fun _ => trivial, rfl, (updateQueueItem_frame (fun _ => none) "j1" {}).2 rfl⟩

/-- Claim C7: for every `ProgressEvent` received for a job present in the
queue, the client records the event's currentFile, cumulative bytesWritten
and optional totalBytes on that job's entry and sets its status to
extracting (filesExtracted is hard-coded to 0; the other fields are kept). -/
theorem progress_event_recorded (q : Queue) (ev : ProgressEvent) (item : QueueItem)
    (h : q ev.jobId = some item) :
    processProgress q ev ev.jobId =
      some { item with
        status := .extracting
        progress := some
          { currentFile := ev.currentFile
            bytesWritten := ev.bytesWritten
            totalBytes := ev.totalBytes
            filesExtracted := 0 } } := by
  simp [processProgress, updateQueueItem, h, Queue.setKey, progressUpdate, applyUpdate]

theorem progress_event_recorded_witness :
    ((fun k => if k = "j1" then some ⟨"j1", "/d/a.zip", "/d/a", .pending, none, none, none⟩ else none) :
        Queue) "j1" = some ⟨"j1", "/d/a.zip", "/d/a", .pending, none, none, none⟩ ∧
    processProgress
        (fun k => if k = "j1" then some ⟨"j1", "/d/a.zip", "/d/a", .pending, none, none, none⟩ else none)
        ⟨"j1", "a.txt", 42, some 100⟩ "j1" =
      some ⟨"j1", "/d/a.zip", "/d/a", .extracting, some ⟨"a.txt", 42, some 100, 0⟩, none, none⟩ :=
  ⟨rfl,
   progress_event_recorded
     (fun k => if k = "j1" then some ⟨"j1", "/d/a.zip", "/d/a", .pending, none, none, none⟩ else none)
     ⟨"j1", "a.txt", 42, some 100⟩
     ⟨"j1", "/d/a.zip", "/d/a", .pending, none, none, none⟩ rfl⟩

/-- Claim C8: completion handling is idempotent per job id — a
`CompletionEvent` whose jobId was already processed leaves the whole state
(queue map, processed set, toasts) unchanged. -/
theorem completion_idempotent (st : AppState) (ev : CompletionEvent)
    (h : ev.jobId ∈ st.completedJobs) :
    processCompletion st ev = st := by
  simp [processCompletion, h]

theorem completion_idempotent_witness :
    ("j1" : String) ∈ ["j1"] ∧
    processCompletion ⟨fun _ => none, ["j1"], []⟩
        ⟨"j1", .str "Success", none, none, "/d/a.zip"⟩ =
      (⟨fun _ => none, ["j1"], []⟩ : AppState) :=
  ⟨by decide,
   completion_idempotent ⟨fun _ => none, ["j1"], []⟩
     ⟨"j1", .str "Success", none, none, "/d/a.zip"⟩ (by decide)⟩

/-- Claim C4 counterexample: the completion handler lowercases the status
value before comparing, so the event status `"Success"` — which is neither
the value `"success"` nor `"cancelled"` — yields `completed`, not `failed`
as the claim's "every other status value yields failed" requires. -/
theorem completion_status_cex :
    JSValue.str "Success" ≠ JSValue.str "success" ∧
    JSValue.str "Success" ≠ JSValue.str "cancelled" ∧
    (((processCompletion
        ⟨fun k => if k = "j1" then some ⟨"j1", "/d/a.zip", "/d/a", .extracting, none, none, none⟩ else none,
          [], []⟩
        ⟨"j1", .str "Success", none, none, "/d/a.zip"⟩).queue "j1").map
      (fun item => item.status)) = some .completed ∧
    some JobStatus.completed ≠ some JobStatus.failed := by
  exact ⟨by decide, by decide, by decide, by decide⟩

/-- Claim C4 (amended): after a fresh `CompletionEvent` for a job in the
queue is processed, that job's status is one of exactly the three terminal
statuses and never pending or extracting; a status value whose lowercased
string form is `"success"` yields completed, lowercased `"cancelled"`
yields cancelled, and every other value (strings and stringified non-null
objects with any other lowercased form, and all null/undefined/number/
boolean values) yields failed. -/
theorem completion_terminal_status (st : AppState) (ev : CompletionEvent)
    (item : QueueItem) (hnew : ev.jobId ∉ st.completedJobs)
    (hq : st.queue ev.jobId = some item) :
    ∃ item', (processCompletion st ev).queue ev.jobId = some item' ∧
      (item'.status = .completed ∨ item'.status = .failed ∨ item'.status = .cancelled) ∧
      item'.status ≠ .pending ∧ item'.status ≠ .extracting ∧
      (completionStatusStr ev.status = "success" → item'.status = .completed) ∧
      (completionStatusStr ev.status = "cancelled" → item'.status = .cancelled) ∧
      (completionStatusStr ev.status ≠ "success" →
        completionStatusStr ev.status ≠ "cancelled" → item'.status = .failed) := by
  have hqueue : (processCompletion st ev).queue =
      updateQueueItem st.queue ev.jobId
        (completionUpdate ev (mapCompletionStatus (completionStatusStr ev.status))) := by
    simp [processCompletion, hnew]
  refine ⟨applyUpdate item
      (completionUpdate ev (mapCompletionStatus (completionStatusStr ev.status))),
    ?_, ?_⟩
  · rw [hqueue]
    simp [updateQueueItem, hq, Queue.setKey]
  · have hstat : (applyUpdate item
        (completionUpdate ev (mapCompletionStatus (completionStatusStr ev.status)))).status =
        mapCompletionStatus (completionStatusStr ev.status) := by
      simp [applyUpdate, completionUpdate]
    rw [hstat]
    unfold mapCompletionStatus
    by_cases hs : completionStatusStr ev.status = "success"
    · simp [hs]
    · by_cases hc : completionStatusStr ev.status = "cancelled"
      · simp [hs, hc]
      · simp [hs, hc]

theorem completion_terminal_status_witness :
    ("j1" : String) ∉ ([] : List String) ∧
    ∃ item', (processCompletion
        ⟨fun k => if k = "j1" then some ⟨"j1", "/d/a.zip", "/d/a", .extracting, none, none, none⟩ else none,
          [], []⟩
        ⟨"j1", .str "Cancelled", none, none, "/d/a.zip"⟩).queue "j1" = some item' ∧
      item'.status = .cancelled := by
  refine ⟨by decide, ?_⟩
  obtain ⟨item', hq, -, -, -, -, hcanc, -⟩ :=
    completion_terminal_status
      ⟨fun k => if k = "j1" then some ⟨"j1", "/d/a.zip", "/d/a", .extracting, none, none, none⟩ else none,
        [], []⟩
      ⟨"j1", .str "Cancelled", none, none, "/d/a.zip"⟩
      ⟨"j1", "/d/a.zip", "/d/a", .extracting, none, none, none⟩
      (by decide) rfl
  exact ⟨item', hq, hcanc (by decide)⟩

/-- Claim C5: an accepted extract request returning `jobId` creates the
job's queue entry under exactly that identifier with initial status
pending (touching no other key), and every subsequent progress or
completion event is applied to the queue entry whose key equals the
event's jobId (no other key changes); a progress event sets that entry's
status to extracting. -/
theorem extract_job_correlation (q : Queue) (jobId archivePath outputDir : String)
    (evP : ProgressEvent) (evC : CompletionEvent) (st : AppState) :
    (handleExtractAccepted q jobId archivePath outputDir) jobId =
      some { id := jobId, archivePath := archivePath, outputDir := outputDir,
             status := .pending } ∧
    (∀ k, k ≠ jobId → handleExtractAccepted q jobId archivePath outputDir k = q k) ∧
    (∀ k, k ≠ evP.jobId → processProgress q evP k = q k) ∧
    (∀ item, q evP.jobId = some item →
      processProgress q evP evP.jobId = some (applyUpdate item (progressUpdate evP)) ∧
      (applyUpdate item (progressUpdate evP)).status = .extracting) ∧
    (∀ k, k ≠ evC.jobId → (processCompletion st evC).queue k = st.queue k) := by
  refine ⟨?_, ?_, ?_, ?_, ?_⟩
  · simp [handleExtractAccepted, addToQueue, Queue.setKey]
  · intro k hk
    simp [handleExtractAccepted, addToQueue, Queue.setKey, hk]
  · intro k hk
    exact (updateQueueItem_frame q evP.jobId (progressUpdate evP)).1 k hk
  · intro item hitem
    constructor
    · simp [processProgress, updateQueueItem, hitem, Queue.setKey]
    · simp [applyUpdate, progressUpdate]
  · intro k hk
    by_cases hmem : evC.jobId ∈ st.completedJobs
    · simp [processCompletion, hmem]
    · have : (processCompletion st evC).queue =
          updateQueueItem st.queue evC.jobId
            (completionUpdate evC (mapCompletionStatus (completionStatusStr evC.status))) := by
        simp [processCompletion, hmem]
      rw [this]
      exact (updateQueueItem_frame st.queue evC.jobId _).1 k hk

theorem extract_job_correlation_witness :
    (handleExtractAccepted
        (fun k => if k = "j1" then some ⟨"j1", "/d/a.zip", "/d/a", .pending, none, none, none⟩ else none)
        "j1" "/d/a.zip" "/d/a") "j1" =
      some { id := "j1", archivePath := "/d/a.zip", outputDir := "/d/a",
             status := JobStatus.pending } ∧
    (applyUpdate ⟨"j1", "/d/a.zip", "/d/a", .pending, none, none, none⟩
      (progressUpdate ⟨"j1", "a.txt", 7, none⟩)).status = .extracting := by
  obtain ⟨h1, -, -, h4, -⟩ :=
    extract_job_correlation
      (fun k => if k = "j1" then some ⟨"j1", "/d/a.zip", "/d/a", .pending, none, none, none⟩ else none)
      "j1" "/d/a.zip" "/d/a"
      ⟨"j1", "a.txt", 7, none⟩ ⟨"j1", .str "Success", none, none, "/d/a.zip"⟩
      ⟨fun _ => none, [], []⟩
  exact ⟨h1, (h4 ⟨"j1", "/d/a.zip", "/d/a", .pending, none, none, none⟩ rfl).2⟩

/-- Claim C1 counterexample: the sanitizer strips `strip_components` leading
segments before the `..` check, so the entry path `"../evil"` — which
contains a `..` segment — sanitizes successfully under
`strip_components = 1` instead of failing with `UnsafePath` (the resolved
path is still inside the output directory). -/
theorem sanitize_dotdot_cex :
    (".." ∈ pathSegs "../evil") ∧
    sanitizePath "/out" 1 false false ⟨"../evil", .file, 1⟩ = .ok "/out/evil" ∧
    sanitizePath "/out" 1 false false ⟨"../evil", .file, 1⟩ ≠ .error .UnsafePath := by
  refine ⟨by decide, rfl, ?_⟩
  intro h
  exact Except.noConfusion h

/-- Claim C1 (amended): whenever no stripping is configured
(`strip_components = 0`), a container path holding a `..` segment makes
sanitization fail with `UnsafePath`; and independently of the options,
every entry that is written resolves to a path lexically at or under the
output directory — the root followed by surviving segments none of which
is `..`, `.` or empty. -/
theorem sanitizePath_safe (root : String) (stripComponents : Nat)
    (allowSymlinks allowHardlinks : Bool) (entry : EngineEntry) :
    (stripComponents = 0 → ".." ∈ pathSegs entry.path →
      sanitizePath root stripComponents allowSymlinks allowHardlinks entry =
        .error .UnsafePath) ∧
    (∀ p, sanitizePath root stripComponents allowSymlinks allowHardlinks entry = .ok p →
      ∃ rel, (∀ s ∈ rel, s ≠ "" ∧ s ≠ "." ∧ s ≠ "..") ∧
        p = root ++ "/" ++ String.intercalate "/" rel) := by
  constructor
  · intro h0 hmem
    subst h0
    have hne : entry.path ≠ "" := by
      intro h
      rw [h] at hmem
      exact absurd hmem (by decide)
    unfold sanitizePath
    rw [if_neg hne, List.drop_zero]
    have hne2 : ¬(pathSegs entry.path = [] ∧ entry.kind ≠ .directory) := by
      rintro ⟨h1, -⟩
      rw [h1] at hmem
      cases hmem
    rw [if_neg hne2]
    have hmem2 : ".." ∈ (pathSegs entry.path).filter (fun s => s ≠ ".") := by
      rw [List.mem_filter]
      exact ⟨hmem, by decide⟩
    rw [if_pos hmem2]
  · intro p hp
    unfold sanitizePath at hp
    by_cases h1 : entry.path = ""
    · rw [if_pos h1] at hp
      cases hp
    · rw [if_neg h1] at hp
      by_cases h2 : (pathSegs entry.path).drop stripComponents = [] ∧ entry.kind ≠ .directory
      · rw [if_pos h2] at hp
        cases hp
      · rw [if_neg h2] at hp
        by_cases h3 : ".." ∈ ((pathSegs entry.path).drop stripComponents).filter (fun s => s ≠ ".")
        · rw [if_pos h3] at hp
          cases hp
        · rw [if_neg h3] at hp
          by_cases h4 : entry.kind = .symlink ∧ allowSymlinks = false
          · rw [if_pos h4] at hp
            cases hp
          · rw [if_neg h4] at hp
            by_cases h5 : entry.kind = .hardlink ∧ allowHardlinks = false
            · rw [if_pos h5] at hp
              cases hp
            · rw [if_neg h5] at hp
              refine ⟨((pathSegs entry.path).drop stripComponents).filter (fun s => s ≠ "."),
                ?_, ?_⟩
              · intro s hs
                have hs1 := List.mem_filter.mp hs
                have hs2 : s ∈ pathSegs entry.path :=
                  List.drop_subset stripComponents _ hs1.1
                have hs3 := List.mem_filter.mp ((by exact hs2) : s ∈ (splitPath entry.path).filter (fun t => t ≠ ""))
                refine ⟨by simpa using hs3.2, by simpa using hs1.2, ?_⟩
                intro hdd
                exact h3 (hdd ▸ hs)
              · cases hp
                rfl

theorem sanitizePath_safe_witness :
    ((0 : Nat) = 0) ∧ (".." ∈ pathSegs "a/../b") ∧
    sanitizePath "/out" 0 false false ⟨"a/../b", .file, 3⟩ = .error .UnsafePath :=
  ⟨rfl, by decide,
   (sanitizePath_safe "/out" 0 false false ⟨"a/../b", .file, 3⟩).1 rfl (by decide)⟩

/-- Claim C3: for every archive whose probed `uncompressed_estimate` (the
sum of the entries' sizes) exceeds the configured `size_limit_bytes`,
running the extraction fails the job with `SizeLimitExceeded`; the bytes on
disk at failure never exceed the configured limit (in particular not by
more than one in-flight entry's size), and they are exactly the sizes of an
already-written entry run that is left in place — no rollback. -/
theorem size_limit_enforced (entries : List EngineEntry) (limit : Nat)
    (hover : limit < uncompressedEstimate entries) :
    ∃ written, runExtraction (some limit) entries 0 = .error (.SizeLimitExceeded, written) ∧
      written ≤ limit ∧
      ∃ done rest, entries = done ++ rest ∧ written = uncompressedEstimate done := by
  have h := runExtraction_over limit entries 0 (by omega) (Nat.zero_le limit)
  obtain ⟨d, hrun, hd, done, rest, heq, hsum⟩ := h
  exact ⟨d, hrun, hd, done, rest, heq, by omega⟩

theorem size_limit_enforced_witness :
    ((7 : Nat) < uncompressedEstimate [⟨"a", .file, 5⟩, ⟨"b", .file, 10⟩]) ∧
    ∃ written,
      runExtraction (some 7) [⟨"a", .file, 5⟩, ⟨"b", .file, 10⟩] 0 =
        .error (.SizeLimitExceeded, written) ∧
      written ≤ 7 := by
  refine ⟨by decide, ?_⟩
  obtain ⟨w, hrun, hw, -⟩ :=
    size_limit_enforced [⟨"a", .file, 5⟩, ⟨"b", .file, 10⟩] 7 (by decide)
  exact ⟨w, hrun, hw⟩

/-- Claim C6: for a multi-part RAR set whose parts all exist in one
directory, selecting any part for extraction behaves identically to
selecting the first part — detection resolves the selected part name to the
canonical first part of its set, and the reader is opened on that first
part either way. -/
theorem rar_multipart_resolves_first (siblings : List String)
    (base selected : String) (i : Nat)
    (hsel : rarPartBaseIndex selected = some (base, i))
    (hfirst : rarPartName base 1 ∈ siblings)
    (hp1 : rarPartBaseIndex (rarPartName base 1) = some (base, 1)) :
    readerOpenPath siblings selected = some (rarPartName base 1) ∧
    readerOpenPath siblings selected = readerOpenPath siblings (rarPartName base 1) := by
  have h1 : readerOpenPath siblings selected = some (rarPartName base 1) := by
    simp [readerOpenPath, resolveRarFirstPart, hsel, hfirst]
  have h2 : readerOpenPath siblings (rarPartName base 1) = some (rarPartName base 1) := by
    simp [readerOpenPath, resolveRarFirstPart, hp1, hfirst]
  exact ⟨h1, h1.trans h2.symm⟩

theorem rar_multipart_resolves_first_witness :
    rarPartBaseIndex "archive.part3.rar" = some ("archive", 3) ∧
    readerOpenPath ["archive.part1.rar", "archive.part2.rar", "archive.part3.rar"]
        "archive.part3.rar" = some "archive.part1.rar" ∧
    readerOpenPath ["archive.part1.rar", "archive.part2.rar", "archive.part3.rar"]
        "archive.part3.rar" =
      readerOpenPath ["archive.part1.rar", "archive.part2.rar", "archive.part3.rar"]
        "archive.part1.rar" := by
  refine ⟨rfl, ?_⟩
  have h := rar_multipart_resolves_first
    ["archive.part1.rar", "archive.part2.rar", "archive.part3.rar"]
    "archive" "archive.part3.rar" 3 rfl (by decide) rfl
  exact ⟨h.1, h.2⟩

/-- Claim C10 counterexample: in the entry list
`["a//b/c", "a/b/"]` the entry `"a//b/c"` has three path segments and its
parent segments followed by `"/"` are `"a/b/"`; a node with exactly that
path is in the forest, yet the entry's node sits at the root (not under
that node), because the comparator sorts `"a//b/c"` before `"a/b/"`, so the
parent is not in the node map when the child is inserted. -/
theorem buildTree_parent_cex :
    (1 < (pathSegs "a//b/c").length) ∧
    parentPathOf (pathSegs "a//b/c") = "a/b/" ∧
    (∃ m ∈ buildTree [⟨"a//b/c", false, 5, none⟩, ⟨"a/b/", true, 0, none⟩],
      m.path = "a/b/") ∧
    (∃ n ∈ buildTree [⟨"a//b/c", false, 5, none⟩, ⟨"a/b/", true, 0, none⟩],
      n.path = "a//b/c" ∧ n.parent = none ∧ n.parent ≠ some "a/b/") := by
  exact ⟨by decide, by decide, by decide, by decide⟩

/-- Claim C10 (amended): for every list of archive entries with
pairwise-distinct paths, `buildTree` returns a forest with exactly one node
per entry, each node carrying the entry's last path segment as its name
together with its is_directory flag and sizes; an entry with more than one
path segment is attached under the node whose path equals its parent
segments followed by `"/"` when an entry with exactly that path exists and
sorts strictly before the entry's own path under the comparator (as it
always does for normalized paths, the parent path being a proper prefix),
and appears at the root when no entry has that path. -/
theorem buildTree_spec (entries : List ArchiveEntry)
    (hdist : (entries.map (fun e => e.path)).Nodup)
    (e : ArchiveEntry) (he : e ∈ entries) :
    (buildTree entries).length = entries.length ∧
    ∃ n, n ∈ buildTree entries ∧
      n.path = e.path ∧
      n.name = ((pathSegs e.path).getLast?).getD e.path ∧
      n.isDirectory = e.is_directory ∧
      n.size = e.size ∧
      n.compressedSize = e.compressed_size ∧
      (∀ m, m ∈ buildTree entries → m.path = e.path → m = n) ∧
      ((pathSegs e.path).length ≤ 1 → n.parent = none) ∧
      (1 < (pathSegs e.path).length →
        ((∃ q, q ∈ entries ∧ q.path = parentPathOf (pathSegs e.path) ∧
            lexLeB e.path.data (parentPathOf (pathSegs e.path)).data = false) →
          n.parent = some (parentPathOf (pathSegs e.path))) ∧
        ((∀ q, q ∈ entries → q.path ≠ parentPathOf (pathSegs e.path)) →
          n.parent = none)) := by
  haveI : IsTotal ArchiveEntry entryLe :=
    ⟨fun a b => lexLeB_total a.path.data b.path.data⟩
  haveI : IsTrans ArchiveEntry entryLe :=
    ⟨fun a b c => lexLeB_trans a.path.data b.path.data c.path.data⟩
  have hperm : (List.insertionSort entryLe entries).Perm entries :=
    List.perm_insertionSort entryLe entries
  have hsorted : List.Sorted entryLe (List.insertionSort entryLe entries) :=
    List.sorted_insertionSort entryLe entries
  constructor
  · rw [buildTree, buildNodes_length]
    exact hperm.length_eq
  · have hes : e ∈ List.insertionSort entryLe entries := hperm.mem_iff.mpr he
    obtain ⟨i, hi, hgi⟩ := List.mem_iff_getElem.mp hes
    have hnode : (buildTree entries)[i]? =
        some (treeNodeFor e
          ((((List.insertionSort entryLe entries).take (i + 1)).map
            (fun x => x.path)).reverse ++ [])) := by
      rw [buildTree, buildNodes_getElem?, List.getElem?_eq_getElem hi, hgi,
        Option.map_some']
    have hmem : treeNodeFor e
        ((((List.insertionSort entryLe entries).take (i + 1)).map
          (fun x => x.path)).reverse ++ []) ∈ buildTree entries :=
      List.getElem?_mem hnode
    have hlook : ∀ s : String,
        s ∈ (((List.insertionSort entryLe entries).take (i + 1)).map
          (fun x => x.path)).reverse ++ [] ↔
        s ∈ ((List.insertionSort entryLe entries).take (i + 1)).map
          (fun x => x.path) := by
      intro s
      simp
    have hpaths_nodup : ((buildTree entries).map (fun x => x.path)).Nodup := by
      rw [buildTree, buildNodes_map_path]
      exact ((hperm.map (fun x => x.path)).nodup_iff).mpr hdist
    refine ⟨_, hmem, rfl, rfl, rfl, rfl, rfl, ?_, ?_, ?_⟩
    · intro m hm hmp
      exact List.inj_on_of_nodup_map hpaths_nodup hm hmem (by rw [hmp]; rfl)
    · intro hle
      rw [treeNodeFor_parent, if_neg (not_lt.mpr hle)]
    · intro h2
      constructor
      · rintro ⟨q, hq, hqp, hstrict⟩
        obtain ⟨j, hj, hgj⟩ := List.mem_iff_getElem.mp (hperm.mem_iff.mpr hq)
        have hji : j < i + 1 := by
          by_contra hcon
          have hij : i < j := by omega
          have hrel := List.pairwise_iff_getElem.mp hsorted i j hi hj hij
          have hle : lexLeB e.path.data q.path.data = true := by
            rw [← hgi, ← hgj] at *
            exact hrel
          rw [hqp] at hle
          cases hle.symm.trans hstrict
        have hqtake : ((List.insertionSort entryLe entries).take (i + 1))[j]? =
            some q := by
          rw [List.getElem?_take_of_lt hji, List.getElem?_eq_getElem hj, hgj]
        have hqmem : q ∈ (List.insertionSort entryLe entries).take (i + 1) :=
          List.getElem?_mem hqtake
        have hppmem : parentPathOf (pathSegs e.path) ∈
            ((List.insertionSort entryLe entries).take (i + 1)).map
              (fun x => x.path) :=
          List.mem_map.mpr ⟨q, hqmem, hqp⟩
        rw [treeNodeFor_parent, if_pos h2,
          if_pos ((hlook (parentPathOf (pathSegs e.path))).mpr hppmem)]
      · intro hforall
        have hnot : parentPathOf (pathSegs e.path) ∉
            (((List.insertionSort entryLe entries).take (i + 1)).map
              (fun x => x.path)).reverse ++ [] := by
          intro hppmem
          obtain ⟨x, hx_take, hx_path⟩ :=
            List.mem_map.mp ((hlook (parentPathOf (pathSegs e.path))).mp hppmem)
          have hx_entries : x ∈ entries :=
            hperm.subset (List.take_subset _ _ hx_take)
          exact hforall x hx_entries hx_path
        rw [treeNodeFor_parent, if_pos h2, if_neg hnot]

theorem buildTree_spec_witness :
    ∃ n, n ∈ buildTree [⟨"a/", true, 0, none⟩, ⟨"a/b.txt", false, 5, none⟩] ∧
      n.path = "a/b.txt" ∧ n.name = "b.txt" ∧ n.isDirectory = false ∧
      n.size = 5 ∧ n.parent = some "a/" := by
  obtain ⟨-, n, hmem, hpath, hname, hdir, hsz, -, -, -, hgt⟩ :=
    buildTree_spec [⟨"a/", true, 0, none⟩, ⟨"a/b.txt", false, 5, none⟩]
      (by decide) ⟨"a/b.txt", false, 5, none⟩ (by decide)
  have hpar := (hgt (by decide)).1
    ⟨⟨"a/", true, 0, none⟩, by decide, by decide, by decide⟩
  refine ⟨n, hmem, hpath, ?_, hdir, hsz, ?_⟩
  · rw [hname]
    decide
  · rw [hpar]
    decide

end Unarchiver
